import Mathlib

/-!
Verification of the NTTA toll-expenser encrypted caching core:
the JSON codec used by the secure-storage envelope, the secure-storage
read/write/migration logic, and the transaction cache (recency policy,
expiry pruning, date-range filtering, merge precedence).
-/

/-- JSON values as handled by JSON.stringify / JSON.parse in the storage
layer. Numbers are modelled as integers (IEEE-754 float formatting is out
of scope for the claims considered here). -/
inductive Json where
  | null
  | bool (b : Bool)
  | num (n : Int)
  | str (s : String)
  | arr (elems : List Json)
  | obj (fields : List (String × Json))

namespace JsonCodec

/-- Decimal digit character for a digit value 0..9. -/
def digitChar : Nat → Char
  | 0 => '0' | 1 => '1' | 2 => '2' | 3 => '3' | 4 => '4'
  | 5 => '5' | 6 => '6' | 7 => '7' | 8 => '8' | _ => '9'

/-- Test for an ASCII decimal digit. -/
def isDigitCh (c : Char) : Bool := 48 ≤ c.toNat && c.toNat ≤ 57

/-- Fuelled decimal rendering of a natural number (most significant digit
first); fuel bounds the number of digits produced. -/
def serNatAux : Nat → Nat → List Char
  | 0, _ => []
  | fuel + 1, n =>
    if n < 10 then [digitChar n]
    else serNatAux fuel (n / 10) ++ [digitChar (n % 10)]

/-- Decimal rendering of a natural number. -/
def serNatChars (n : Nat) : List Char := serNatAux (n + 1) n

/-- Decimal rendering of an integer (sign followed by digits), as
JSON.stringify renders integral numbers. -/
def serInt (i : Int) : List Char :=
  if i < 0 then '-' :: serNatChars (-i).toNat else serNatChars i.toNat

/-- Hexadecimal digit character (lowercase) for a value 0..15. -/
def hexCharOf (n : Nat) : Char :=
  if n < 10 then digitChar n
  else if n = 10 then 'a' else if n = 11 then 'b' else if n = 12 then 'c'
  else if n = 13 then 'd' else if n = 14 then 'e' else 'f'

/-- Value of a hexadecimal digit character, if it is one. -/
def hexVal (c : Char) : Option Nat :=
  let n := c.toNat
  if 48 ≤ n ∧ n ≤ 57 then some (n - 48)
  else if 97 ≤ n ∧ n ≤ 102 then some (n - 87)
  else if 65 ≤ n ∧ n ≤ 70 then some (n - 55)
  else none

/-- JSON string-literal escaping of one character, as JSON.stringify
performs it: quote and backslash get a backslash escape, control
characters get a \u00XX escape, everything else is emitted raw. -/
def escChar (c : Char) : List Char :=
  if c = '"' then ['\\', '"']
  else if c = '\\' then ['\\', '\\']
  else if c.toNat < 32 then
    ['\\', 'u', '0', '0', hexCharOf (c.toNat / 16), hexCharOf (c.toNat % 16)]
  else [c]

/-- Escaped body of a JSON string literal. -/
def escBody (cs : List Char) : List Char := cs.flatMap escChar

/-- Read four hexadecimal digits from the head of the input. -/
def readHex4 : List Char → Option (Nat × List Char)
  | h1 :: h2 :: h3 :: h4 :: cs =>
    match hexVal h1, hexVal h2, hexVal h3, hexVal h4 with
    | some a, some b, some c, some d => some (a * 4096 + b * 256 + c * 16 + d, cs)
    | _, _, _, _ => none
  | _ => none

/-- Decode one JSON string escape: the character after the backslash plus
the input following it; yields the decoded character and the rest. -/
def parseEscapeChar (e : Char) (cs2 : List Char) : Option (Char × List Char) :=
  if e = '"' then some ('"', cs2)
  else if e = '\\' then some ('\\', cs2)
  else if e = '/' then some ('/', cs2)
  else if e = 'n' then some ('\n', cs2)
  else if e = 't' then some ('\t', cs2)
  else if e = 'r' then some ('\r', cs2)
  else if e = 'b' then some (Char.ofNat 8, cs2)
  else if e = 'f' then some (Char.ofNat 12, cs2)
  else if e = 'u' then (readHex4 cs2).map (fun p => (Char.ofNat p.1, p.2))
  else none

/-- Continuation of a string-literal parse directly after a backslash;
the first argument resumes the surrounding string-body parse. -/
def parseAfterBackslash
    (cont : List Char → Option (List Char × List Char)) :
    List Char → Option (List Char × List Char)
  | [] => none
  | e :: cs2 =>
    match parseEscapeChar e cs2 with
    | some (d, cs3) => (cont cs3).map (fun p => (d :: p.1, p.2))
    | none => none

/-- Parse the body of a JSON string literal up to (and consuming) the
closing quote, undoing the escapes; returns the decoded characters and
the remaining input. The fuel (any bound above the number of decoded
characters, e.g. the input length) makes the recursion structural. -/
def parseStringBody : Nat → List Char → Option (List Char × List Char)
  | 0, _ => none
  | _ + 1, [] => none
  | fuel + 1, c :: cs =>
    if c = '"' then some ([], cs)
    else if c = '\\' then parseAfterBackslash (parseStringBody fuel) cs
    else (parseStringBody fuel cs).map (fun p => (c :: p.1, p.2))

/-- Longest digit run at the head of the input, plus the rest. -/
def takeDigits : List Char → List Char × List Char
  | [] => ([], [])
  | c :: cs =>
    if isDigitCh c then
      let p := takeDigits cs
      (c :: p.1, p.2)
    else ([], c :: cs)

/-- Numeric value of a digit run (most significant first). -/
def digitsVal (ds : List Char) : Nat :=
  ds.foldl (fun a c => a * 10 + (c.toNat - 48)) 0

/-- Parse a nonempty digit run into a natural number. -/
def parseNatDigits (cs : List Char) : Option (Nat × List Char) :=
  match takeDigits cs with
  | ([], _) => none
  | (ds, rest) => some (digitsVal ds, rest)

mutual
/-- Serialization of a JSON value to characters, following the output
format of JSON.stringify (no whitespace, double-quoted escaped strings,
comma-separated arrays and objects). -/
def serJson : Json → List Char
  | .null => "null".data
  | .bool true => "true".data
  | .bool false => "false".data
  | .num i => serInt i
  | .str s => '"' :: escBody s.data ++ ['"']
  | .arr es => '[' :: serElems es ++ [']']
  | .obj fs => '\x7b' :: serFields fs ++ ['\x7d']
def serElems : List Json → List Char
  | [] => []
  | [e] => serJson e
  | e :: es => serJson e ++ ',' :: serElems es
def serFields : List (String × Json) → List Char
  | [] => []
  | [(k, v)] => '"' :: escBody k.data ++ '"' :: ':' :: serJson v
  | (k, v) :: fs => ('"' :: escBody k.data ++ '"' :: ':' :: serJson v) ++ ',' :: serFields fs
end

/-- Match an expected literal character sequence at the head of the
input, returning what follows it. -/
def eatLit : List Char → List Char → Option (List Char)
  | [], cs => some cs
  | _ :: _, [] => none
  | l :: ls, c :: cs => if c = l then eatLit ls cs else none

/-- Body of a JSON array after the opening bracket: either an immediate
closing bracket, or a nonempty element list (parsed by the first
argument) followed by the closing bracket. -/
def parseArrayBody
    (pe : List Char → Option (List Json × List Char)) :
    List Char → Option (Json × List Char)
  | [] => none
  | c :: r =>
    if c = ']' then some (.arr [], r)
    else
      match pe (c :: r) with
      | some (es, r2) =>
        match r2 with
        | ']' :: r3 => some (.arr es, r3)
        | _ => none
      | none => none

/-- Body of a JSON object after the opening brace: either an immediate
closing brace, or a nonempty field list (parsed by the first argument)
followed by the closing brace. -/
def parseObjBody
    (pf : List Char → Option (List (String × Json) × List Char)) :
    List Char → Option (Json × List Char)
  | [] => none
  | c :: r =>
    if c = '\x7d' then some (.obj [], r)
    else
      match pf (c :: r) with
      | some (fs, r2) =>
        match r2 with
        | '\x7d' :: r3 => some (.obj fs, r3)
        | _ => none
      | none => none

mutual
/-- Recursive-descent JSON parser with explicit fuel (any bound strictly
above the serialized size of the value; it makes the recursion
structural). Mirrors JSON.parse on the output format of serJson. -/
def parseVal : Nat → List Char → Option (Json × List Char)
  | 0, _ => none
  | _ + 1, [] => none
  | fuel + 1, c :: cs1 =>
    if c = 'n' then
      match eatLit ['u', 'l', 'l'] cs1 with
      | some rest => some (.null, rest)
      | none => none
    else if c = 't' then
      match eatLit ['r', 'u', 'e'] cs1 with
      | some rest => some (.bool true, rest)
      | none => none
    else if c = 'f' then
      match eatLit ['a', 'l', 's', 'e'] cs1 with
      | some rest => some (.bool false, rest)
      | none => none
    else if c = '"' then
      match parseStringBody (cs1.length + 1) cs1 with
      | some (s, r) => some (.str (String.mk s), r)
      | none => none
    else if c = '[' then parseArrayBody (parseElems fuel) cs1
    else if c = '\x7b' then parseObjBody (parseFields fuel) cs1
    else if c = '-' then
      match parseNatDigits cs1 with
      | some (n, r) => some (.num (-(n : Int)), r)
      | none => none
    else if isDigitCh c then
      match parseNatDigits (c :: cs1) with
      | some (n, r) => some (.num (n : Int), r)
      | none => none
    else none
def parseElems : Nat → List Char → Option (List Json × List Char)
  | 0, _ => none
  | fuel + 1, cs =>
    match parseVal fuel cs with
    | some (v, r) =>
      match r with
      | ',' :: r2 =>
        match parseElems fuel r2 with
        | some (es, r3) => some (v :: es, r3)
        | none => none
      | _ => some ([v], r)
    | none => none
def parseFields : Nat → List Char → Option (List (String × Json) × List Char)
  | 0, _ => none
  | fuel + 1, cs =>
    match eatLit ['"'] cs with
    | none => none
    | some cs1 =>
      match parseStringBody (cs1.length + 1) cs1 with
      | some (k, r1) =>
        match r1 with
        | ':' :: r2 =>
          match parseVal fuel r2 with
          | some (v, r3) =>
            match r3 with
            | ',' :: r4 =>
              match parseFields fuel r4 with
              | some (fs, r5) => some ((String.mk k, v) :: fs, r5)
              | none => none
            | _ => some ([(String.mk k, v)], r3)
          | none => none
        | _ => none
      | none => none
end

/-- Full serialization to a string (the model of JSON.stringify). -/
def stringifyJson (v : Json) : String := String.mk (serJson v)

/-- Full parse of a string (the model of JSON.parse): the whole input
must be consumed. Returns none where JSON.parse would throw. -/
def parseJson (s : String) : Option Json :=
  match parseVal (s.data.length + 1) s.data with
  | some (v, []) => some v
  | _ => none

/-- True when the input does not begin with a decimal digit (so a digit
run just before it ends there). -/
def headNotDigit : List Char → Bool
  | [] => true
  | c :: _ => !isDigitCh c

theorem digitChar_toNat : ∀ n, n < 10 → (digitChar n).toNat = 48 + n := by decide

theorem isDigitCh_digitChar : ∀ n, n < 10 → isDigitCh (digitChar n) = true := by decide

theorem serNatAux_digits (fuel : Nat) :
    ∀ n, (serNatAux fuel n).all isDigitCh = true := by
  induction fuel with
  | zero => intro n; rfl
  | succ f ih =>
    intro n
    rw [serNatAux]
    by_cases h : n < 10
    · simp [h, isDigitCh_digitChar n h]
    · simp [h, List.all_append, ih (n / 10),
        isDigitCh_digitChar (n % 10) (Nat.mod_lt n (by norm_num))]

theorem serNatAux_ne_nil (fuel n : Nat) : serNatAux (fuel + 1) n ≠ [] := by
  rw [serNatAux]
  by_cases h : n < 10 <;> simp [h]

theorem takeDigits_append :
    ∀ ds rest, ds.all isDigitCh = true → headNotDigit rest = true →
      takeDigits (ds ++ rest) = (ds, rest) := by
  intro ds
  induction ds with
  | nil =>
    intro rest _ hrest
    cases rest with
    | nil => rfl
    | cons c cs =>
      simp only [headNotDigit, Bool.not_eq_true'] at hrest
      simp [takeDigits, hrest]
  | cons d ds ih =>
    intro rest hall hrest
    simp only [List.all_cons, Bool.and_eq_true] at hall
    simp [takeDigits, hall.1, ih rest hall.2 hrest]

theorem foldl_digits_serNatAux (fuel : Nat) :
    ∀ n a, n < 10 ^ fuel →
      (serNatAux fuel n).foldl (fun a c => a * 10 + (c.toNat - 48)) a =
        a * 10 ^ (serNatAux fuel n).length + n := by
  induction fuel with
  | zero =>
    intro n a hn
    interval_cases n
    simp [serNatAux]
  | succ f ih =>
    intro n a hn
    rw [serNatAux]
    by_cases h : n < 10
    · simp [h, digitChar_toNat n h]
    · simp only [h, if_false]
      have hdiv : n / 10 < 10 ^ f := by
        rw [Nat.div_lt_iff_lt_mul (by norm_num)]
        calc n < 10 ^ (f + 1) := hn
        _ = 10 ^ f * 10 := by ring
      rw [List.foldl_append, ih (n / 10) a hdiv]
      simp [digitChar_toNat (n % 10) (Nat.mod_lt n (by norm_num))]
      have hmod : n % 10 + 10 * (n / 10) = n := Nat.mod_add_div n 10
      set L := (serNatAux f (n / 10)).length
      ring_nf
      omega

theorem parseNatDigits_serNat (n : Nat) (rest : List Char)
    (hrest : headNotDigit rest = true) :
    parseNatDigits (serNatChars n ++ rest) = some (n, rest) := by
  unfold parseNatDigits serNatChars
  rw [takeDigits_append _ _ (serNatAux_digits (n + 1) n) hrest]
  have hne := serNatAux_ne_nil n n
  have hpow : n < 10 ^ (n + 1) :=
    lt_of_lt_of_le (Nat.lt_pow_self (by norm_num) n)
      (Nat.pow_le_pow_right (by norm_num) (Nat.le_succ n))
  have hfold := foldl_digits_serNatAux (n + 1) n 0 hpow
  cases hser : serNatAux (n + 1) n with
  | nil => exact absurd hser hne
  | cons d ds =>
    rw [hser] at hfold
    simp only [digitsVal, hfold]
    simp

theorem hexVal_hexCharOf : ∀ n, n < 16 → hexVal (hexCharOf n) = some n := by decide

theorem escBody_nil : escBody [] = [] := rfl

theorem escBody_cons (c : Char) (cs : List Char) :
    escBody (c :: cs) = escChar c ++ escBody cs := rfl

theorem length_le_escBody : ∀ cs : List Char, cs.length ≤ (escBody cs).length := by
  intro cs
  induction cs with
  | nil => simp [escBody_nil]
  | cons c cs ih =>
    rw [escBody_cons]
    have h1 : 1 ≤ (escChar c).length := by
      unfold escChar
      by_cases h1 : c = '"' <;> by_cases h2 : c = '\\' <;>
        by_cases h3 : c.toNat < 32 <;> simp [h1, h2, h3]
    simp only [List.length_append, List.length_cons]
    omega

theorem parseStringBody_escBody :
    ∀ (cs : List Char) (fuel : Nat) (rest : List Char), cs.length < fuel →
      parseStringBody fuel (escBody cs ++ '"' :: rest) = some (cs, rest) := by
  intro cs
  induction cs with
  | nil =>
    intro fuel rest hfuel
    obtain ⟨f, rfl⟩ : ∃ f, fuel = f + 1 := ⟨fuel - 1, by omega⟩
    simp [escBody_nil, parseStringBody]
  | cons c cs ih =>
    intro fuel rest hfuel
    obtain ⟨f, rfl⟩ : ∃ f, fuel = f + 1 := ⟨fuel - 1, by omega⟩
    have hf : cs.length < f := by
      simp only [List.length_cons] at hfuel
      omega
    rw [escBody_cons, List.append_assoc]
    by_cases h1 : c = '"'
    · subst h1
      simp [escChar, parseStringBody, parseAfterBackslash, parseEscapeChar, ih f rest hf]
    · by_cases h2 : c = '\\'
      · subst h2
        simp [escChar, parseStringBody, parseAfterBackslash, parseEscapeChar, ih f rest hf]
      · by_cases h3 : c.toNat < 32
        · have hhi : c.toNat / 16 < 16 := by omega
          have hlo : c.toNat % 16 < 16 := Nat.mod_lt _ (by norm_num)
          simp only [escChar, h1, h2, h3, if_true, if_false, List.cons_append,
            List.nil_append, parseStringBody]
          simp only [if_neg (by decide : ¬(('\\' : Char) = '"')), if_pos rfl,
            parseAfterBackslash]
          simp only [parseEscapeChar,
            if_neg (by decide : ¬(('u' : Char) = '"')),
            if_neg (by decide : ¬(('u' : Char) = '\\')),
            if_neg (by decide : ¬(('u' : Char) = '/')),
            if_neg (by decide : ¬(('u' : Char) = 'n')),
            if_neg (by decide : ¬(('u' : Char) = 't')),
            if_neg (by decide : ¬(('u' : Char) = 'r')),
            if_neg (by decide : ¬(('u' : Char) = 'b')),
            if_neg (by decide : ¬(('u' : Char) = 'f')), if_pos rfl]
          rw [readHex4, show hexVal '0' = some 0 from rfl,
            hexVal_hexCharOf _ hhi, hexVal_hexCharOf _ hlo]
          have harith : 0 * 4096 + 0 * 256 + c.toNat / 16 * 16 + c.toNat % 16 = c.toNat := by
            omega
          simp [harith, Char.ofNat_toNat, ih f rest hf]
          rw [show c.toNat / 16 * 16 + c.toNat % 16 = c.toNat by omega, Char.ofNat_toNat]
        · simp [escChar, h1, h2, h3, parseStringBody, ih f rest hf]

theorem serNatAux_head_digit :
    ∀ fuel n, 0 < fuel →
      ∃ d ds, serNatAux fuel n = d :: ds ∧ isDigitCh d = true := by
  intro fuel
  induction fuel with
  | zero => intro n h; omega
  | succ f ih =>
    intro n _
    rw [serNatAux]
    by_cases h : n < 10
    · exact ⟨digitChar n, [], by simp [h], isDigitCh_digitChar n h⟩
    · cases f with
      | zero =>
        exact ⟨digitChar (n % 10), [], by simp [h, serNatAux],
          isDigitCh_digitChar _ (Nat.mod_lt n (by norm_num))⟩
      | succ f2 =>
        obtain ⟨d, ds, hser, hd⟩ := ih (n / 10) (Nat.succ_pos f2)
        exact ⟨d, ds ++ [digitChar (n % 10)], by simp [h, hser], hd⟩

theorem isDigitCh_ne_specials (c : Char) (h : isDigitCh c = true) :
    c ≠ 'n' ∧ c ≠ 't' ∧ c ≠ 'f' ∧ c ≠ '"' ∧ c ≠ '[' ∧ c ≠ '\x7b' ∧
      c ≠ '-' ∧ c ≠ ']' ∧ c ≠ '\x7d' ∧ c ≠ ',' ∧ c ≠ ':' := by
  refine ⟨?_, ?_, ?_, ?_, ?_, ?_, ?_, ?_, ?_, ?_, ?_⟩ <;>
    (rintro rfl; revert h; decide)

theorem serJson_head :
    ∀ v : Json, ∃ d ds, serJson v = d :: ds ∧ d ≠ ']' ∧ d ≠ '\x7d' := by
  intro v
  cases v with
  | null => exact ⟨'n', _, rfl, by decide, by decide⟩
  | bool b =>
    cases b with
    | true => exact ⟨'t', _, rfl, by decide, by decide⟩
    | false => exact ⟨'f', _, rfl, by decide, by decide⟩
  | str s => exact ⟨'"', _, rfl, by decide, by decide⟩
  | arr es => exact ⟨'[', _, rfl, by decide, by decide⟩
  | obj fs => exact ⟨'\x7b', _, rfl, by decide, by decide⟩
  | num i =>
    rw [serJson, serInt]
    by_cases hneg : i < 0
    · exact ⟨'-', serNatChars (-i).toNat, by simp [hneg], by decide, by decide⟩
    · obtain ⟨d, ds, hser, hd⟩ :=
        serNatAux_head_digit (i.toNat + 1) i.toNat (Nat.succ_pos _)
      obtain ⟨_, _, _, _, _, _, _, h8, h9, _, _⟩ := isDigitCh_ne_specials d hd
      exact ⟨d, ds, by simp [hneg, serNatChars, hser], h8, h9⟩

theorem serJson_ne_nil (v : Json) : serJson v ≠ [] := by
  obtain ⟨d, ds, hser, _, _⟩ := serJson_head v
  simp [hser]

theorem serJson_length_pos (v : Json) : 0 < (serJson v).length := by
  obtain ⟨d, ds, hser, _, _⟩ := serJson_head v
  simp [hser]

theorem headNotDigit_rsq (cs : List Char) : headNotDigit (']' :: cs) = true := rfl

theorem headNotDigit_rbrace (cs : List Char) : headNotDigit ('\x7d' :: cs) = true := rfl

theorem headNotDigit_comma (cs : List Char) : headNotDigit (',' :: cs) = true := rfl

theorem parse_serJson_roundtrip :
    ∀ fuel : Nat,
      (∀ v rest, (serJson v).length < fuel → headNotDigit rest = true →
        parseVal fuel (serJson v ++ rest) = some (v, rest)) ∧
      (∀ es rest, es ≠ [] → (serElems es).length + 1 < fuel →
        parseElems fuel (serElems es ++ ']' :: rest) = some (es, ']' :: rest)) ∧
      (∀ fs rest, fs ≠ [] → (serFields fs).length + 1 < fuel →
        parseFields fuel (serFields fs ++ '\x7d' :: rest) = some (fs, '\x7d' :: rest)) := by
  intro fuel
  induction fuel with
  | zero =>
    refine ⟨fun v rest hlen _ => absurd hlen (by omega),
      fun es rest _ hlen => absurd hlen (by omega),
      fun fs rest _ hlen => absurd hlen (by omega)⟩
  | succ f ih =>
    obtain ⟨ihv, ihe, ihf⟩ := ih
    refine ⟨?_, ?_, ?_⟩
    · -- values
      intro v rest hlen hrest
      cases v with
      | null => simp [serJson, parseVal, eatLit]
      | bool b => cases b <;> simp [serJson, parseVal, eatLit]
      | num i =>
        rw [serJson, serInt]
        by_cases hneg : i < 0
        · simp only [if_pos hneg, List.cons_append]
          rw [parseVal]
          simp only [if_neg (by decide : ¬('-' : Char) = 'n'),
            if_neg (by decide : ¬('-' : Char) = 't'),
            if_neg (by decide : ¬('-' : Char) = 'f'),
            if_neg (by decide : ¬('-' : Char) = '"'),
            if_neg (by decide : ¬('-' : Char) = '['),
            if_neg (by decide : ¬('-' : Char) = '\x7b'),
            eq_self_iff_true, if_true]
          rw [parseNatDigits_serNat _ _ hrest]
          simp [Int.toNat_of_nonneg (show (0 : Int) ≤ -i by omega), neg_neg]
        · obtain ⟨d, ds, hser, hd⟩ :=
            serNatAux_head_digit (i.toNat + 1) i.toNat (Nat.succ_pos _)
          obtain ⟨hn, ht, hf2, hq, hlb, hbr, hm, _, _, _, _⟩ := isDigitCh_ne_specials d hd
          simp only [hneg, if_false, serNatChars, hser, List.cons_append]
          rw [parseVal]
          simp only [if_neg hn, if_neg ht, if_neg hf2, if_neg hq, if_neg hlb,
            if_neg hbr, if_neg hm, hd, if_true]
          have hback : d :: (ds ++ rest) = serNatChars i.toNat ++ rest := by
            simp [serNatChars, hser]
          rw [hback, parseNatDigits_serNat _ _ hrest]
          simp [Int.toNat_of_nonneg (by omega : (0 : Int) ≤ i)]
      | str s =>
        rw [serJson]
        simp only [List.cons_append, List.append_assoc, List.singleton_append,
          List.nil_append]
        rw [parseVal]
        have hfe : s.data.length < (escBody s.data ++ '"' :: rest).length + 1 := by
          have := length_le_escBody s.data
          simp only [List.length_append, List.length_cons]
          omega
        simp only [if_neg (by decide : ¬('"' : Char) = 'n'),
          if_neg (by decide : ¬('"' : Char) = 't'),
          if_neg (by decide : ¬('"' : Char) = 'f'),
          eq_self_iff_true, if_true]
        rw [parseStringBody_escBody s.data _ rest hfe]
      | arr es =>
        cases es with
        | nil => simp [serJson, serElems, parseVal, parseArrayBody]
        | cons e es2 =>
          have hlen2 : (serElems (e :: es2)).length + 1 < f := by
            rw [serJson] at hlen
            simp only [List.length_cons, List.length_append] at hlen
            omega
          obtain ⟨t, ht⟩ : ∃ t, serElems (e :: es2) = serJson e ++ t := by
            cases es2 with
            | nil => exact ⟨[], by simp [serElems]⟩
            | cons e2 es3 => exact ⟨',' :: serElems (e2 :: es3), rfl⟩
          obtain ⟨d, ds, hde, hdr, _⟩ := serJson_head e
          rw [serJson]
          simp only [List.cons_append, List.append_assoc, List.singleton_append,
            List.nil_append]
          rw [parseVal]
          simp only [if_neg (by decide : ¬('[' : Char) = 'n'),
            if_neg (by decide : ¬('[' : Char) = 't'),
            if_neg (by decide : ¬('[' : Char) = 'f'),
            if_neg (by decide : ¬('[' : Char) = '"'),
            eq_self_iff_true, if_true]
          have hcons : serElems (e :: es2) ++ ']' :: rest = d :: (ds ++ (t ++ ']' :: rest)) := by
            rw [ht, hde]
            simp
          rw [hcons, parseArrayBody]
          simp only [if_neg hdr]
          rw [← hcons, ihe (e :: es2) rest (by simp) hlen2]
          rfl
      | obj fs =>
        cases fs with
        | nil => simp [serJson, serFields, parseVal, parseObjBody]
        | cons kv fs2 =>
          have hlen2 : (serFields (kv :: fs2)).length + 1 < f := by
            rw [serJson] at hlen
            simp only [List.length_cons, List.length_append] at hlen
            omega
          obtain ⟨t, ht⟩ : ∃ t, serFields (kv :: fs2) = '"' :: t := by
            obtain ⟨k, v⟩ := kv
            cases fs2 with
            | nil => exact ⟨_, rfl⟩
            | cons kv2 fs3 =>
              exact ⟨(escBody k.data ++ '"' :: ':' :: serJson v) ++
                ',' :: serFields (kv2 :: fs3), by simp [serFields]⟩
          rw [serJson]
          simp only [List.cons_append, List.append_assoc, List.singleton_append,
            List.nil_append]
          rw [parseVal]
          simp only [if_neg (by decide : ¬('\x7b' : Char) = 'n'),
            if_neg (by decide : ¬('\x7b' : Char) = 't'),
            if_neg (by decide : ¬('\x7b' : Char) = 'f'),
            if_neg (by decide : ¬('\x7b' : Char) = '"'),
            if_neg (by decide : ¬('\x7b' : Char) = '['),
            eq_self_iff_true, if_true]
          have hcons : serFields (kv :: fs2) ++ '\x7d' :: rest = '"' :: (t ++ '\x7d' :: rest) := by
            rw [ht]
            simp
          rw [hcons, parseObjBody]
          simp only [if_neg (by decide : ¬('"' : Char) = '\x7d')]
          rw [← hcons, ihf (kv :: fs2) rest (by simp) hlen2]
          rfl
    · -- elements of an array
      intro es rest hne hlen
      cases es with
      | nil => exact absurd rfl hne
      | cons e es2 =>
        cases es2 with
        | nil =>
          have hfe : (serJson e).length < f := by
            simp only [serElems, List.length_cons] at hlen
            omega
          rw [parseElems]
          simp only [serElems]
          rw [ihv e (']' :: rest) hfe (headNotDigit_rsq rest)]
          rfl
        | cons e2 es3 =>
          have hpos := serJson_length_pos e
          have hfe : (serJson e).length < f := by
            simp only [serElems, List.length_append, List.length_cons] at hlen
            omega
          have hlen3 : (serElems (e2 :: es3)).length + 1 < f := by
            simp only [serElems, List.length_append, List.length_cons] at hlen
            omega
          rw [parseElems]
          simp only [serElems, List.cons_append, List.append_assoc]
          rw [ihv e _ hfe (headNotDigit_comma _)]
          simp only []
          rw [ihe (e2 :: es3) rest (by simp) hlen3]
    · -- fields of an object
      intro fs rest hne hlen
      cases fs with
      | nil => exact absurd rfl hne
      | cons kv fs2 =>
        obtain ⟨k, v⟩ := kv
        cases fs2 with
        | nil =>
          have hkey : k.data.length <
              (escBody k.data ++ '"' :: ':' :: (serJson v ++ '\x7d' :: rest)).length + 1 := by
            have := length_le_escBody k.data
            simp only [List.length_append, List.length_cons]
            omega
          have hfv : (serJson v).length < f := by
            simp only [serFields, List.length_cons, List.length_append] at hlen
            omega
          rw [parseFields]
          simp only [serFields, List.cons_append, List.append_assoc, List.singleton_append]
          simp only [eatLit, eq_self_iff_true, if_true]
          rw [parseStringBody_escBody k.data _ _ hkey]
          simp only []
          rw [ihv v _ hfv (headNotDigit_rbrace _)]
          rfl
        | cons kv2 fs3 =>
          have hkey : k.data.length <
              (escBody k.data ++ '"' :: ':' ::
                (serJson v ++ ',' :: (serFields (kv2 :: fs3) ++ '\x7d' :: rest))).length + 1 := by
            have := length_le_escBody k.data
            simp only [List.length_append, List.length_cons]
            omega
          have hpos := serJson_length_pos v
          have hfv : (serJson v).length < f := by
            simp only [serFields, List.length_cons, List.length_append] at hlen
            omega
          have hlen3 : (serFields (kv2 :: fs3)).length + 1 < f := by
            simp only [serFields, List.length_cons, List.length_append] at hlen
            omega
          rw [parseFields]
          simp only [serFields, List.cons_append, List.append_assoc, List.singleton_append]
          simp only [eatLit, eq_self_iff_true, if_true]
          rw [parseStringBody_escBody k.data _ _ hkey]
          simp only []
          rw [ihv v _ hfv (headNotDigit_comma _)]
          simp only []
          rw [ihf (kv2 :: fs3) rest (by simp) hlen3]

/-- JSON.parse undoes JSON.stringify on every value of the model. -/
theorem parseJson_stringifyJson (v : Json) : parseJson (stringifyJson v) = some v := by
  have h := (parse_serJson_roundtrip ((serJson v).length + 1)).1 v []
    (by omega) rfl
  rw [List.append_nil] at h
  show (match parseVal ((serJson v).length + 1) (serJson v) with
    | some (v, []) => some v
    | _ => none) = some v
  rw [h]

example : serNatChars 1234 = ['1', '2', '3', '4'] := rfl
example : stringifyJson (.arr [.num (-25), .null]) = "[-25,null]" := rfl
example : parseJson "[-25,null]" = some (.arr [.num (-25), .null]) := rfl
example :
    parseJson "\x7b\"a\":[1,true],\"b\":\"x\"\x7d" =
      some (.obj [("a", .arr [.num 1, .bool true]), ("b", .str "x")]) := rfl
example : parseJson "tru" = none := rfl

end JsonCodec

/-! ## Association-list maps

JavaScript objects and the Map used by the merge are modelled as
insertion-ordered association lists: assignment to an existing key keeps
its position (as both object assignment and Map.set do), a new key is
appended at the end. -/

/-- Lookup in an association list (first matching key). -/
def lookupA {K V : Type} [DecidableEq K] : List (K × V) → K → Option V
  | [], _ => none
  | p :: rest, k => if p.1 = k then some p.2 else lookupA rest k

/-- Assignment in an association list: overwrite in place, else append. -/
def setA {K V : Type} [DecidableEq K] : List (K × V) → K → V → List (K × V)
  | [], k, v => [(k, v)]
  | p :: rest, k, v => if p.1 = k then (k, v) :: rest else p :: setA rest k v

/-- Deletion from an association list. -/
def eraseA {K V : Type} [DecidableEq K] (m : List (K × V)) (k : K) : List (K × V) :=
  m.filter (fun p => !decide (p.1 = k))

/-- Keys of an association list. -/
def keysA {K V : Type} (m : List (K × V)) : List K := m.map (·.1)

/-- JavaScript objects never hold the same key twice. -/
abbrev NodupKeys {K V : Type} (m : List (K × V)) : Prop := (keysA m).Nodup

theorem lookupA_setA_self {K V : Type} [DecidableEq K] (m : List (K × V)) (k : K) (v : V) :
    lookupA (setA m k v) k = some v := by
  induction m with
  | nil => simp [setA, lookupA]
  | cons p rest ih =>
    by_cases h : p.1 = k
    · simp [setA, h, lookupA]
    · simp [setA, h, lookupA, ih]

theorem lookupA_setA_ne {K V : Type} [DecidableEq K] (m : List (K × V)) (k k2 : K) (v : V)
    (h : k2 ≠ k) : lookupA (setA m k v) k2 = lookupA m k2 := by
  induction m with
  | nil => simp [setA, lookupA, Ne.symm h]
  | cons p rest ih =>
    by_cases hp : p.1 = k
    · subst hp
      simp [setA, lookupA, Ne.symm h]
    · simp only [setA, if_neg hp]
      by_cases hp2 : p.1 = k2
      · simp [lookupA, hp2]
      · simp [lookupA, hp2, ih]

theorem lookupA_eraseA_self {K V : Type} [DecidableEq K] (m : List (K × V)) (k : K) :
    lookupA (eraseA m k) k = none := by
  induction m with
  | nil => simp [eraseA, lookupA]
  | cons p rest ih =>
    simp only [eraseA, List.filter_cons] at ih ⊢
    by_cases h : p.1 = k
    · simp [h, ih]
    · simp [h, lookupA, ih]

theorem lookupA_eraseA_ne {K V : Type} [DecidableEq K] (m : List (K × V)) (k k2 : K)
    (h : k2 ≠ k) : lookupA (eraseA m k) k2 = lookupA m k2 := by
  induction m with
  | nil => simp [eraseA, lookupA]
  | cons p rest ih =>
    simp only [eraseA, List.filter_cons] at ih ⊢
    by_cases hp : p.1 = k
    · subst hp
      simp [lookupA, Ne.symm h, ih]
    · by_cases hp2 : p.1 = k2
      · simp [hp, lookupA, hp2, h]
      · simp [hp, lookupA, hp2, ih]

theorem mem_keysA_setA {K V : Type} [DecidableEq K] (m : List (K × V)) (k k2 : K) (v : V) :
    k2 ∈ keysA (setA m k v) ↔ k2 ∈ keysA m ∨ k2 = k := by
  induction m with
  | nil => simp [setA, keysA]
  | cons p rest ih =>
    by_cases hp : p.1 = k
    · subst hp
      simp [setA, keysA]
      tauto
    · simp only [setA, if_neg hp, keysA, List.map_cons, List.mem_cons] at ih ⊢
      rw [ih]
      tauto

theorem nodupKeys_setA {K V : Type} [DecidableEq K] (m : List (K × V)) (k : K) (v : V)
    (h : NodupKeys m) : NodupKeys (setA m k v) := by
  induction m with
  | nil => simp [setA, NodupKeys, keysA]
  | cons p rest ih =>
    simp only [NodupKeys, keysA, List.map_cons, List.nodup_cons] at h
    by_cases hp : p.1 = k
    · subst hp
      simp only [setA, eq_self_iff_true, if_true, NodupKeys, keysA, List.map_cons,
        List.nodup_cons]
      exact h
    · have ht := ih h.2
      simp only [setA, if_neg hp, NodupKeys, keysA, List.map_cons, List.nodup_cons]
      refine ⟨?_, ht⟩
      intro hmem
      rcases (mem_keysA_setA rest k p.1 v).1 hmem with hin | heq
      · exact h.1 hin
      · exact hp heq

theorem nodupKeys_eraseA {K V : Type} [DecidableEq K] (m : List (K × V)) (k : K)
    (h : NodupKeys m) : NodupKeys (eraseA m k) := by
  have hsub : List.Sublist (eraseA m k) m := List.filter_sublist m
  exact List.Nodup.sublist (List.Sublist.map _ hsub) h

theorem lookupA_eq_some_of_mem {K V : Type} [DecidableEq K] (m : List (K × V)) (k : K) (v : V)
    (hnd : NodupKeys m) (hmem : (k, v) ∈ m) : lookupA m k = some v := by
  induction m with
  | nil => simp at hmem
  | cons p rest ih =>
    simp only [NodupKeys, keysA, List.map_cons, List.nodup_cons] at hnd
    rcases List.mem_cons.1 hmem with heq | hin
    · subst heq
      simp [lookupA]
    · have hk : p.1 ≠ k := by
        intro hpk
        exact hnd.1 (hpk ▸ List.mem_map_of_mem (·.1) hin)
      simp [lookupA, hk, ih hnd.2 hin]

theorem mem_of_lookupA_eq_some {K V : Type} [DecidableEq K] (m : List (K × V)) (k : K) (v : V)
    (h : lookupA m k = some v) : (k, v) ∈ m := by
  induction m with
  | nil => simp [lookupA] at h
  | cons p rest ih =>
    by_cases hp : p.1 = k
    · simp only [lookupA, if_pos hp] at h
      obtain ⟨a, b⟩ := p
      simp only [Option.some.injEq] at hp h
      subst hp
      subst h
      exact List.mem_cons_self _ _
    · simp only [lookupA, if_neg hp] at h
      exact List.mem_cons_of_mem p (ih h)

/-! ## Secure storage (src/utils/secureStorage.js)

The Web Crypto layer (AES-GCM under a PBKDF2-derived key, base64
transport encoding) is host functionality; it is modelled as an ideal
authenticated cipher. An envelope value stands for the concrete string
"ENC:" ++ base64(iv ++ ciphertext): since the 12 clear IV bytes prefix
the ciphertext and AES-GCM is deterministic in (key, iv, plaintext),
distinct (key, iv, plaintext) triples yield distinct strings, and
authenticated decryption recovers the plaintext exactly under the
matching key and fails on anything else (raw strings that merely carry
the marker fail base64 decoding or tag verification). Randomness is
made explicit: each encryption call receives the IV sampled for it. -/

/-- Ideal AES-GCM sealed box: key identity, clear IV bytes, plaintext. -/
structure Sealed where
  keyId : Nat
  iv : List Nat
  plaintext : String
  deriving DecidableEq

/-- A string held in the underlying storage medium: either an arbitrary
raw string (legacy plaintext, or garbage) or an encryption envelope
produced by encrypt. -/
inductive StoredString where
  | raw (s : String)
  | env (e : Sealed)
  deriving DecidableEq

/-- The marker prefixed to every envelope (ENCRYPTION_PREFIX in the
source). -/
def encMarker : String := "ENC:"

/-- Model of stored.startsWith(ENCRYPTION_PREFIX): every envelope string
carries the marker; a raw string is tested directly. -/
def startsWithMarker : StoredString → Bool
  | .raw s => encMarker.data.isPrefixOf s.data
  | .env _ => true

/-- Model of the JavaScript falsiness test `!stored`: only the empty
string is falsy; envelope strings are never empty. -/
def isEmptyStored : StoredString → Bool
  | .raw s => s = ""
  | .env _ => false

/-- encrypt(data, key): JSON.stringify the value, seal it under the key
with the freshly sampled IV, envelope the result behind the marker. -/
def encrypt (data : Json) (keyId : Nat) (iv : List Nat) : StoredString :=
  .env ⟨keyId, iv, JsonCodec.stringifyJson data⟩

/-- decrypt(encryptedString, key): strip the marker, base64-decode,
split off the IV, run authenticated decryption, JSON.parse the result;
any failure (malformed transport encoding, wrong key, tampered data,
non-JSON plaintext) yields null. -/
def decrypt (stored : StoredString) (keyId : Nat) : Option Json :=
  match stored with
  | .raw _ => none
  | .env e => if e.keyId = keyId then JsonCodec.parseJson e.plaintext else none

/-- The underlying storage medium (sessionStorage / localStorage): a
string-keyed map of stored strings. -/
def Store : Type := List (String × StoredString)

namespace SecureStorage

/-- setItem(key, value): encrypt under the instance key (keyId) with the
sampled IV and write the envelope under key. -/
def setItem (st : Store) (key : String) (value : Json) (keyId : Nat) (iv : List Nat) :
    Store :=
  setA st key (encrypt value keyId iv)

/-- getItem(key): absent gives null; an empty stored string is falsy and
gives null; a marker-carrying string is decrypted, a failure deleting
the corrupted entry; anything else is legacy plaintext, JSON-parsed
(falling back to the raw string) and transparently re-encrypted via
setItem. Returns the result together with the storage afterwards. -/
def getItem (st : Store) (key : String) (keyId : Nat) (iv : List Nat) :
    Option Json × Store :=
  match lookupA st key with
  | none => (none, st)
  | some (.env e) =>
    match decrypt (.env e) keyId with
    | none => (none, eraseA st key)
    | some v => (some v, st)
  | some (.raw s) =>
    if s = "" then (none, st)
    else if encMarker.data.isPrefixOf s.data then
      match decrypt (.raw s) keyId with
      | none => (none, eraseA st key)
      | some v => (some v, st)
    else
      match JsonCodec.parseJson s with
      | some plain => (some plain, setItem st key plain keyId iv)
      | none => (some (.str s), setItem st key (.str s) keyId iv)

/-- removeItem(key). -/
def removeItem (st : Store) (key : String) : Store := eraseA st key

end SecureStorage

/-! ## Transaction cache (transactionCache module)

Times are epoch milliseconds. A transaction record's TripDate field is
modelled by the result of `new Date(t.TripDate).getTime()`: some
milliseconds when the field parses to a valid date, none when the field
is absent or unparseable (NaN). The Date constructor never throws;
every arithmetic comparison against NaN is false, which the none
branches reproduce. The float expression `(now - trip) / 86400000 < 3`
is modelled by the exact integer comparison `now - trip < 3 * 86400000`;
for integral millisecond differences in the representable range the two
agree (the quotient of any integer below 259200000 by 86400000 rounds
to a double strictly below 3, and 259200000 / 86400000 is exactly 3). -/

/-- One toll transaction record, reduced to the fields the cache reads.
CustomerTripId is none when the field is absent (undefined); the id 0 is
falsy in JavaScript exactly like an absent field. TollAmount is in
cents. -/
structure Transaction where
  CustomerTripId : Option Int
  TripDate : Option Int
  TollAmount : Int
  deriving DecidableEq

/-- Cache metadata stored per transaction id. -/
structure CacheMeta where
  cachedAt : Int
  expiresAt : Int
  isRecent : Bool
  deriving DecidableEq

/-- The persisted cache container: transactions by id plus parallel
metadata by id. -/
structure Cache where
  transactions : List (Int × Transaction)
  metadata : List (Int × CacheMeta)
  deriving DecidableEq

namespace TransactionCache

/-- RECENT_TRANSACTION_THRESHOLD_DAYS. -/
def recentThresholdDays : Int := 3

/-- RECENT_CACHE_DURATION_MS (1 hour). -/
def recentCacheDurationMs : Int := 60 * 60 * 1000

/-- OLD_CACHE_DURATION_MS (7 days). -/
def oldCacheDurationMs : Int := 7 * 24 * 60 * 60 * 1000

/-- isRecentTransaction: daysAgo = (now - tripDate) / msPerDay < 3.
With an invalid trip date the subtraction gives NaN and NaN < 3 is
false, so the record is NOT classified recent; the catch fallback
`return true` in the source is unreachable because the Date constructor
does not throw. -/
def isRecentTransaction (now : Int) (t : Transaction) : Bool :=
  match t.TripDate with
  | none => false
  | some trip => decide (now - trip < recentThresholdDays * (1000 * 60 * 60 * 24))

/-- getCacheDuration. -/
def getCacheDuration (now : Int) (t : Transaction) : Int :=
  if isRecentTransaction now t then recentCacheDurationMs else oldCacheDurationMs

/-- JavaScript truthiness of an identifier value: undefined/null and the
number 0 are falsy. -/
def truthyId : Option Int → Bool
  | none => false
  | some n => !decide (n = 0)

/-- cacheTransactions: for each record with a truthy CustomerTripId,
store the record and its freshly computed metadata (cachedAt, expiresAt,
frozen isRecent classification); records without a truthy id are
skipped. The container is persisted once after the whole batch. -/
def cacheTransactions (now : Int) (txs : List Transaction) (cache : Cache) : Cache :=
  txs.foldl
    (fun c t =>
      match t.CustomerTripId with
      | none => c
      | some id =>
        if id = 0 then c
        else
          { transactions := setA c.transactions id t,
            metadata := setA c.metadata id
              { cachedAt := now, expiresAt := now + getCacheDuration now t,
                isRecent := isRecentTransaction now t } })
    cache

/-- start.setHours(0, 0, 0, 0): midnight of the timestamp's day. -/
def dayStartMs (t : Int) : Int := t - t % 86400000

/-- end.setHours(23, 59, 59, 999): last millisecond of the day. -/
def dayEndMs (t : Int) : Int := dayStartMs t + 86399999

/-- The date-range test tripDate >= start && tripDate <= end; an invalid
trip date (NaN) fails both comparisons. -/
def inRange (start stop : Int) (t : Transaction) : Bool :=
  match t.TripDate with
  | none => false
  | some trip => decide (start ≤ trip ∧ trip ≤ stop)

/-- Appending cache.transactions[id] to the result when it exists and
falls inside the requested range. -/
def collectTx (start stop : Int) (c : Cache) (id : Int) (res : List Transaction) :
    List Transaction :=
  match lookupA c.transactions id with
  | none => res
  | some tx => if inRange start stop tx then res ++ [tx] else res

/-- One step of the getCachedTransactions pass over a snapshot entry:
an entry whose metadata has expired is deleted (transaction and
metadata) and flagged; otherwise the transaction is collected when in
range. -/
def gctStep (now start stop : Int) (acc : List Transaction × Cache × Bool)
    (p : Int × Transaction) : List Transaction × Cache × Bool :=
  let res := acc.1
  let c := acc.2.1
  let hasExpired := acc.2.2
  match lookupA c.metadata p.1 with
  | some meta =>
    if meta.expiresAt < now then
      (res, ⟨eraseA c.transactions p.1, eraseA c.metadata p.1⟩, true)
    else (collectTx start stop c p.1 res, c, hasExpired)
  | none => (collectTx start stop c p.1 res, c, hasExpired)

/-- getCachedTransactions(startDate, endDate): iterate over the snapshot
of the container's keys, lazily pruning expired entries and collecting
unexpired entries whose trip date lies in
[startOfDay(startDate), endOfDay(endDate)]. Returns the collected list,
the container afterwards, and whether anything was pruned (the source
persists the pruned container exactly once, at the end, when this flag
is set). -/
def getCachedTransactions (now startDate endDate : Int) (cache : Cache) :
    List Transaction × Cache × Bool :=
  cache.transactions.foldl
    (gctStep now (dayStartMs startDate) (dayEndMs endDate)) ([], cache, false)

/-- One Map.set step of the merge: records with a falsy id (absent, null
or 0) are skipped, the rest keyed by their id. -/
def insertTx (m : List (Int × Transaction)) (t : Transaction) : List (Int × Transaction) :=
  match t.CustomerTripId with
  | none => m
  | some id => if id = 0 then m else setA m id t

/-- mergeWithCache(fresh, cached): cached records enter the Map first,
fresh records after (overwriting same-id cached records); the result is
the Map's values in insertion order. -/
def mergeWithCache (freshTransactions cachedTransactions : List Transaction) :
    List Transaction :=
  ((freshTransactions.foldl insertTx (cachedTransactions.foldl insertTx [])).map (·.2))

end TransactionCache

/-! ## Claims -/

/-- C9: for every JSON-serializable value v and every derived key,
decrypting the envelope produced by encrypting v under that key yields v
again: decrypt(encrypt(v, k), k) == v. -/
theorem c9_decrypt_encrypt_roundtrip (v : Json) (keyId : Nat) (iv : List Nat) :
    decrypt (encrypt v keyId iv) keyId = some v := by
  simp [encrypt, decrypt, JsonCodec.parseJson_stringifyJson]

/-- C10: each encryption call uses the 12 fresh random IV bytes sampled
for it (made explicit as the iv argument); two calls on the same value
and key whose sampled IVs differ produce different envelope strings,
because the clear IV bytes prefix the ciphertext inside the envelope. -/
theorem c10_fresh_iv_distinct_envelopes (v : Json) (keyId : Nat) (iv1 iv2 : List Nat)
    (h1 : iv1.length = 12) (h2 : iv2.length = 12) (hne : iv1 ≠ iv2) :
    encrypt v keyId iv1 ≠ encrypt v keyId iv2 := by
  simp [encrypt, hne]

theorem c10_witness :
    [0, 0, 0, 0, 0, 0, 0, 0, 0, 0, 0, 0] ≠ [(1 : Nat), 0, 0, 0, 0, 0, 0, 0, 0, 0, 0, 0] ∧
      encrypt (Json.num 1) 0 [0, 0, 0, 0, 0, 0, 0, 0, 0, 0, 0, 0] ≠
        encrypt (Json.num 1) 0 [1, 0, 0, 0, 0, 0, 0, 0, 0, 0, 0, 0] :=
  ⟨by decide,
    c10_fresh_iv_distinct_envelopes (Json.num 1) 0 _ _ (by decide) (by decide) (by decide)⟩

/-- C2: when the stored string under a key carries the encryption marker
and its decryption fails (corrupt envelope, wrong key, tampered data, or
non-JSON plaintext), getItem deletes the entry and returns null; the
entry is absent afterwards. getItem is a total function of the model, so
no exception crosses this boundary. -/
theorem c2_decrypt_failure_self_heals (st : Store) (key : String) (keyId : Nat)
    (iv : List Nat) (stored : StoredString)
    (hlook : lookupA st key = some stored)
    (hmark : startsWithMarker stored = true)
    (hfail : decrypt stored keyId = none) :
    SecureStorage.getItem st key keyId iv = (none, eraseA st key) ∧
      lookupA (eraseA st key) key = none := by
  refine ⟨?_, lookupA_eraseA_self st key⟩
  cases stored with
  | env e =>
    rw [SecureStorage.getItem, hlook]
    simp [hfail]
  | raw s =>
    simp only [startsWithMarker] at hmark
    have hne : ¬s = "" := by
      intro hs
      subst hs
      simp [encMarker] at hmark
    rw [SecureStorage.getItem, hlook]
    simp [hne, hmark, hfail]

theorem c2_witness :
    lookupA [("k", StoredString.env ⟨5, [1], "x"⟩)] "k" = some (.env ⟨5, [1], "x"⟩) ∧
      startsWithMarker (.env ⟨5, [1], "x"⟩) = true ∧
      decrypt (.env ⟨5, [1], "x"⟩) 0 = none ∧
      SecureStorage.getItem [("k", StoredString.env ⟨5, [1], "x"⟩)] "k" 0 [2] =
        (none, eraseA [("k", StoredString.env ⟨5, [1], "x"⟩)] "k") :=
  ⟨rfl, rfl, rfl,
    (c2_decrypt_failure_self_heals [("k", StoredString.env ⟨5, [1], "x"⟩)] "k" 0 [2]
      (.env ⟨5, [1], "x"⟩) rfl rfl rfl).1⟩

/-- C7: the claim (and the source's own comment, "If we can't parse the
date, treat as recent to be safe") say an unparseable trip timestamp is
classified recent. The code disagrees: the Date constructor does not
throw on unparseable input, so the catch fallback is unreachable; the
comparison NaN < 3 is false and the record is classified NOT recent and
receives the 7-day expiry. This theorem evaluates the code at such a
record. -/
theorem c7_unparseable_date_is_not_recent :
    TransactionCache.isRecentTransaction 1700000000000
        ⟨some 1, none, -250⟩ = false ∧
      (TransactionCache.cacheTransactions 1700000000000
          [⟨some 1, none, -250⟩] ⟨[], []⟩).metadata =
        [(1, ⟨1700000000000, 1700604800000, false⟩)] := by
  exact ⟨rfl, rfl⟩

/-- C6: a record with a parseable trip timestamp is classified recent
exactly when it is strictly less than 3 days old (3 days minus 1 second
ago is recent, exactly 3 days ago is not), and cacheTransactions stores
metadata with expiresAt = now + 1 hour for recent records and
now + 7 days otherwise, freezing the classification in the isRecent
field at insertion time. -/
theorem c6_recency_boundary_and_expiry (now : Int) (t : Transaction) (trip : Int)
    (cache : Cache) (htrip : t.TripDate = some trip) :
    (TransactionCache.isRecentTransaction now t = true ↔
      now - trip < 3 * 86400000) ∧
    (now - trip = 3 * 86400000 - 1000 →
      TransactionCache.isRecentTransaction now t = true) ∧
    (now - trip = 3 * 86400000 →
      TransactionCache.isRecentTransaction now t = false) ∧
    (∀ id : Int, t.CustomerTripId = some id → id ≠ 0 →
      lookupA (TransactionCache.cacheTransactions now [t] cache).metadata id =
        some ⟨now,
          now + (if TransactionCache.isRecentTransaction now t then
            TransactionCache.recentCacheDurationMs
          else TransactionCache.oldCacheDurationMs),
          TransactionCache.isRecentTransaction now t⟩) := by
  have hclass : TransactionCache.isRecentTransaction now t = true ↔
      now - trip < 3 * 86400000 := by
    rw [TransactionCache.isRecentTransaction, htrip]
    simp [TransactionCache.recentThresholdDays]
  refine ⟨hclass, ?_, ?_, ?_⟩
  · intro hb
    rw [hclass]
    omega
  · intro hb
    rw [← Bool.not_eq_true, hclass]
    omega
  · intro id hid hid0
    rw [TransactionCache.cacheTransactions]
    simp only [List.foldl_cons, List.foldl_nil, hid, if_neg hid0]
    rw [lookupA_setA_self]
    rfl

theorem c6_witness :
    TransactionCache.isRecentTransaction 1700000000000
        ⟨some 1, some 1699740801000, -250⟩ = true ∧
      TransactionCache.isRecentTransaction 1700000000000
        ⟨some 1, some 1699740800000, -250⟩ = false ∧
      lookupA (TransactionCache.cacheTransactions 1700000000000
          [⟨some 1, some 1699740801000, -250⟩] ⟨[], []⟩).metadata 1 =
        some ⟨1700000000000,
          1700000000000 + (if TransactionCache.isRecentTransaction 1700000000000
              ⟨some 1, some 1699740801000, -250⟩ then
            TransactionCache.recentCacheDurationMs
          else TransactionCache.oldCacheDurationMs),
          TransactionCache.isRecentTransaction 1700000000000
            ⟨some 1, some 1699740801000, -250⟩⟩ :=
  ⟨(c6_recency_boundary_and_expiry 1700000000000 ⟨some 1, some 1699740801000, -250⟩
      1699740801000 ⟨[], []⟩ rfl).2.1 (by decide),
    (c6_recency_boundary_and_expiry 1700000000000 ⟨some 1, some 1699740800000, -250⟩
      1699740800000 ⟨[], []⟩ rfl).2.2.1 (by decide),
    (c6_recency_boundary_and_expiry 1700000000000 ⟨some 1, some 1699740801000, -250⟩
      1699740801000 ⟨[], []⟩ rfl).2.2.2 1 rfl (by decide)⟩

namespace TransactionCache

/-- Whether the metadata map marks an id as expired at the given time
(absent metadata never counts as expired, as in the source's
`metadata && metadata.expiresAt < now` test). -/
def isExpiredIn (m : List (Int × CacheMeta)) (now id : Int) : Bool :=
  match lookupA m id with
  | some meta => decide (meta.expiresAt < now)
  | none => false

theorem gct_res_inRange (now start stop : Int) :
    ∀ (l : List (Int × Transaction)) (acc : List Transaction × Cache × Bool),
      ∀ tx ∈ (l.foldl (gctStep now start stop) acc).1,
        tx ∈ acc.1 ∨ inRange start stop tx = true := by
  intro l
  induction l with
  | nil => intro acc tx htx; exact Or.inl htx
  | cons p l2 ih =>
    intro acc tx htx
    rw [List.foldl_cons] at htx
    rcases ih (gctStep now start stop acc p) tx htx with hmem | hr
    · obtain ⟨res, c, flag⟩ := acc
      rw [gctStep] at hmem
      rcases hmeta : lookupA c.metadata p.1 with _ | meta <;>
        simp only [hmeta] at hmem
      · rw [collectTx] at hmem
        rcases htr : lookupA c.transactions p.1 with _ | tx2 <;>
          simp only [htr] at hmem
        · exact Or.inl hmem
        · by_cases hir : inRange start stop tx2 = true
          · simp only [hir, if_true, List.mem_append, List.mem_singleton] at hmem
            rcases hmem with hmem | rfl
            · exact Or.inl hmem
            · exact Or.inr hir
          · simp only [hir, if_false] at hmem
            exact Or.inl hmem
      · by_cases hexp : meta.expiresAt < now
        · simp only [if_pos hexp] at hmem
          exact Or.inl hmem
        · simp only [if_neg hexp, collectTx] at hmem
          rcases htr : lookupA c.transactions p.1 with _ | tx2 <;>
            simp only [htr] at hmem
          · exact Or.inl hmem
          · by_cases hir : inRange start stop tx2 = true
            · simp only [hir, if_true, List.mem_append, List.mem_singleton] at hmem
              rcases hmem with hmem | rfl
              · exact Or.inl hmem
              · exact Or.inr hir
            · simp only [hir, if_false] at hmem
              exact Or.inl hmem
    · exact Or.inr hr

end TransactionCache

namespace TransactionCache

theorem gctStep_trans_lookup (now start stop : Int)
    (acc : List Transaction × Cache × Bool) (p : Int × Transaction) (id : Int) :
    lookupA (gctStep now start stop acc p).2.1.transactions id =
        lookupA acc.2.1.transactions id ∨
      lookupA (gctStep now start stop acc p).2.1.transactions id = none := by
  obtain ⟨res, c, flag⟩ := acc
  rw [gctStep]
  rcases hmeta : lookupA c.metadata p.1 with _ | meta
  · exact Or.inl rfl
  · by_cases hexp : meta.expiresAt < now
    · simp only [if_pos hexp]
      by_cases hid : id = p.1
      · subst hid
        exact Or.inr (lookupA_eraseA_self _ _)
      · exact Or.inl (lookupA_eraseA_ne _ _ _ hid)
    · simp only [if_neg hexp]
      simp

theorem gctStep_meta_lookup (now start stop : Int)
    (acc : List Transaction × Cache × Bool) (p : Int × Transaction) (id : Int) :
    lookupA (gctStep now start stop acc p).2.1.metadata id =
        lookupA acc.2.1.metadata id ∨
      lookupA (gctStep now start stop acc p).2.1.metadata id = none := by
  obtain ⟨res, c, flag⟩ := acc
  rw [gctStep]
  rcases hmeta : lookupA c.metadata p.1 with _ | meta
  · exact Or.inl rfl
  · by_cases hexp : meta.expiresAt < now
    · simp only [if_pos hexp]
      by_cases hid : id = p.1
      · subst hid
        exact Or.inr (lookupA_eraseA_self _ _)
      · exact Or.inl (lookupA_eraseA_ne _ _ _ hid)
    · simp only [if_neg hexp]
      simp

theorem gct_fold_trans_none (now start stop : Int) :
    ∀ (l : List (Int × Transaction)) (acc : List Transaction × Cache × Bool) (id : Int),
      lookupA acc.2.1.transactions id = none →
        lookupA ((l.foldl (gctStep now start stop) acc)).2.1.transactions id = none := by
  intro l
  induction l with
  | nil => intro acc id h; exact h
  | cons p l2 ih =>
    intro acc id h
    rw [List.foldl_cons]
    refine ih _ id ?_
    rcases gctStep_trans_lookup now start stop acc p id with heq | hnone
    · rw [heq]; exact h
    · exact hnone

theorem gct_fold_meta_none (now start stop : Int) :
    ∀ (l : List (Int × Transaction)) (acc : List Transaction × Cache × Bool) (id : Int),
      lookupA acc.2.1.metadata id = none →
        lookupA ((l.foldl (gctStep now start stop) acc)).2.1.metadata id = none := by
  intro l
  induction l with
  | nil => intro acc id h; exact h
  | cons p l2 ih =>
    intro acc id h
    rw [List.foldl_cons]
    refine ih _ id ?_
    rcases gctStep_meta_lookup now start stop acc p id with heq | hnone
    · rw [heq]; exact h
    · exact hnone

theorem gctStep_keeps_snapshot (now start stop : Int)
    (acc : List Transaction × Cache × Bool) (p : Int × Transaction)
    (mOrig : List (Int × CacheMeta)) (tOrig : List (Int × Transaction)) (id : Int)
    (hid : id ≠ p.1)
    (h : lookupA acc.2.1.metadata id = lookupA mOrig id ∧
      lookupA acc.2.1.transactions id = lookupA tOrig id) :
    lookupA (gctStep now start stop acc p).2.1.metadata id = lookupA mOrig id ∧
      lookupA (gctStep now start stop acc p).2.1.transactions id = lookupA tOrig id := by
  obtain ⟨res, c, flag⟩ := acc
  rw [gctStep]
  rcases hmeta : lookupA c.metadata p.1 with _ | meta
  · exact h
  · by_cases hexp : meta.expiresAt < now
    · simp only [if_pos hexp]
      exact ⟨(lookupA_eraseA_ne _ _ _ hid).trans h.1,
        (lookupA_eraseA_ne _ _ _ hid).trans h.2⟩
    · simp only [if_neg hexp]
      exact h

theorem gct_fold_prunes (now start stop : Int) :
    ∀ (l : List (Int × Transaction)) (acc : List Transaction × Cache × Bool)
      (mOrig : List (Int × CacheMeta)) (tOrig : List (Int × Transaction)),
      (keysA l).Nodup →
      (∀ id, id ∈ keysA l →
        lookupA acc.2.1.metadata id = lookupA mOrig id ∧
        lookupA acc.2.1.transactions id = lookupA tOrig id) →
      ∀ id0 meta0, id0 ∈ keysA l → lookupA mOrig id0 = some meta0 →
        meta0.expiresAt < now →
          lookupA ((l.foldl (gctStep now start stop) acc)).2.1.transactions id0 = none ∧
          lookupA ((l.foldl (gctStep now start stop) acc)).2.1.metadata id0 = none := by
  intro l
  induction l with
  | nil =>
    intro acc mOrig tOrig _ _ id0 meta0 hmem
    simp [keysA] at hmem
  | cons p l2 ih =>
    intro acc mOrig tOrig hnd hpre id0 meta0 hmem hlook hexp
    rw [List.foldl_cons]
    simp only [keysA, List.map_cons, List.nodup_cons] at hnd
    by_cases hid : id0 = p.1
    · subst hid
      have hpre0 := hpre p.1 (by simp [keysA])
      have hstep : lookupA (gctStep now start stop acc p).2.1.transactions p.1 = none ∧
          lookupA (gctStep now start stop acc p).2.1.metadata p.1 = none := by
        obtain ⟨res, c, flag⟩ := acc
        rw [gctStep]
        rw [show lookupA c.metadata p.1 = some meta0 from hpre0.1.trans hlook]
        simp [hexp, lookupA_eraseA_self]
      exact ⟨gct_fold_trans_none now start stop l2 _ _ hstep.1,
        gct_fold_meta_none now start stop l2 _ _ hstep.2⟩
    · have hmem2 : id0 ∈ keysA l2 := by
        simp only [keysA, List.map_cons, List.mem_cons] at hmem
        tauto
      refine ih (gctStep now start stop acc p) mOrig tOrig hnd.2 ?_ id0 meta0 hmem2
        hlook hexp
      intro id hidmem
      have hne : id ≠ p.1 := by
        intro he
        exact hnd.1 (he ▸ hidmem)
      refine gctStep_keeps_snapshot now start stop acc p mOrig tOrig id hne
        (hpre id ?_)
      simp only [keysA, List.map_cons, List.mem_cons]
      exact Or.inr hidmem

theorem gct_fold_flag (now start stop : Int) :
    ∀ (l : List (Int × Transaction)) (acc : List Transaction × Cache × Bool)
      (mOrig : List (Int × CacheMeta)) (tOrig : List (Int × Transaction)),
      (keysA l).Nodup →
      (∀ id, id ∈ keysA l →
        lookupA acc.2.1.metadata id = lookupA mOrig id ∧
        lookupA acc.2.1.transactions id = lookupA tOrig id) →
      ((l.foldl (gctStep now start stop) acc).2.2 = true ↔
        acc.2.2 = true ∨ ∃ p ∈ l, isExpiredIn mOrig now p.1 = true) := by
  intro l
  induction l with
  | nil =>
    intro acc _ _ _ _
    simp
  | cons p l2 ih =>
    intro acc mOrig tOrig hnd hpre
    rw [List.foldl_cons]
    simp only [keysA, List.map_cons, List.nodup_cons] at hnd
    have hpre2 : ∀ id, id ∈ keysA l2 →
        lookupA (gctStep now start stop acc p).2.1.metadata id = lookupA mOrig id ∧
        lookupA (gctStep now start stop acc p).2.1.transactions id = lookupA tOrig id := by
      intro id hidmem
      have hne : id ≠ p.1 := by
        intro he
        exact hnd.1 (he ▸ hidmem)
      refine gctStep_keeps_snapshot now start stop acc p mOrig tOrig id hne
        (hpre id ?_)
      simp only [keysA, List.map_cons, List.mem_cons]
      exact Or.inr hidmem
    rw [ih (gctStep now start stop acc p) mOrig tOrig hnd.2 hpre2]
    have hp1 := (hpre p.1 (by simp [keysA])).1
    obtain ⟨res, c, flag⟩ := acc
    rw [gctStep]
    rcases hmeta : lookupA c.metadata p.1 with _ | meta
    · have hnotexp : isExpiredIn mOrig now p.1 = false := by
        rw [isExpiredIn, ← hp1, hmeta]
      simp [hnotexp, List.mem_cons, or_and_right, exists_or]
    · by_cases hexp : meta.expiresAt < now
      · have hisexp : isExpiredIn mOrig now p.1 = true := by
          rw [isExpiredIn, ← hp1, hmeta]
          simp [hexp]
        simp [hexp, hisexp, List.mem_cons, or_and_right, exists_or]
      · have hnotexp : isExpiredIn mOrig now p.1 = false := by
          rw [isExpiredIn, ← hp1, hmeta]
          simp [hexp]
        simp [hexp, hnotexp, List.mem_cons, or_and_right, exists_or]

theorem gct_fold_res_origin (now start stop : Int) :
    ∀ (l : List (Int × Transaction)) (acc : List Transaction × Cache × Bool)
      (mOrig : List (Int × CacheMeta)) (tOrig : List (Int × Transaction)),
      (keysA l).Nodup →
      (∀ id, id ∈ keysA l →
        lookupA acc.2.1.metadata id = lookupA mOrig id ∧
        lookupA acc.2.1.transactions id = lookupA tOrig id) →
      ∀ tx ∈ (l.foldl (gctStep now start stop) acc).1,
        tx ∈ acc.1 ∨ ∃ id, id ∈ keysA l ∧ lookupA tOrig id = some tx ∧
          isExpiredIn mOrig now id = false ∧ inRange start stop tx = true := by
  intro l
  induction l with
  | nil =>
    intro acc _ _ _ _ tx htx
    exact Or.inl htx
  | cons p l2 ih =>
    intro acc mOrig tOrig hnd hpre tx htx
    rw [List.foldl_cons] at htx
    simp only [keysA, List.map_cons, List.nodup_cons] at hnd
    have hpre2 : ∀ id, id ∈ keysA l2 →
        lookupA (gctStep now start stop acc p).2.1.metadata id = lookupA mOrig id ∧
        lookupA (gctStep now start stop acc p).2.1.transactions id = lookupA tOrig id := by
      intro id hidmem
      have hne : id ≠ p.1 := by
        intro he
        exact hnd.1 (he ▸ hidmem)
      refine gctStep_keeps_snapshot now start stop acc p mOrig tOrig id hne
        (hpre id ?_)
      simp only [keysA, List.map_cons, List.mem_cons]
      exact Or.inr hidmem
    rcases ih (gctStep now start stop acc p) mOrig tOrig hnd.2 hpre2 tx htx with
      hmem | ⟨id, hidmem, hrest⟩
    · -- the element entered (or was already in) the accumulator at this step
      have hp1 := hpre p.1 (by simp [keysA])
      obtain ⟨res, c, flag⟩ := acc
      rw [gctStep] at hmem
      rcases hmeta : lookupA c.metadata p.1 with _ | meta <;>
        simp only [hmeta] at hmem
      · -- no metadata: not expired, collected when in range
        have hnotexp : isExpiredIn mOrig now p.1 = false := by
          rw [isExpiredIn, ← hp1.1, hmeta]
        rw [collectTx] at hmem
        rcases htr : lookupA c.transactions p.1 with _ | tx2 <;>
          simp only [htr] at hmem
        · exact Or.inl hmem
        · by_cases hir : inRange start stop tx2 = true
          · simp only [hir, if_true, List.mem_append, List.mem_singleton] at hmem
            rcases hmem with hmem | rfl
            · exact Or.inl hmem
            · refine Or.inr ⟨p.1, by simp [keysA], ?_, hnotexp, hir⟩
              rw [← hp1.2, htr]
          · simp only [hir, if_false] at hmem
            exact Or.inl hmem
      · by_cases hexp : meta.expiresAt < now
        · simp only [if_pos hexp] at hmem
          exact Or.inl hmem
        · have hnotexp : isExpiredIn mOrig now p.1 = false := by
            rw [isExpiredIn, ← hp1.1, hmeta]
            simp [hexp]
          simp only [if_neg hexp, collectTx] at hmem
          rcases htr : lookupA c.transactions p.1 with _ | tx2 <;>
            simp only [htr] at hmem
          · exact Or.inl hmem
          · by_cases hir : inRange start stop tx2 = true
            · simp only [hir, if_true, List.mem_append, List.mem_singleton] at hmem
              rcases hmem with hmem | rfl
              · exact Or.inl hmem
              · refine Or.inr ⟨p.1, by simp [keysA], ?_, hnotexp, hir⟩
                rw [← hp1.2, htr]
            · simp only [hir, if_false] at hmem
              exact Or.inl hmem
    · refine Or.inr ⟨id, ?_, hrest⟩
      simp only [keysA, List.map_cons, List.mem_cons]
      right
      exact hidmem

end TransactionCache

/-- C4: after a getCachedTransactions pass over a container (JavaScript
object keys are unique, hence the NodupKeys hypothesis), every entry
whose expiresAt lies strictly in the past is gone from the container
that the pass leaves behind — both the transaction record and its
metadata — and nothing in the returned list was collected from an
expired entry; the returned flag, which is exactly the condition under
which the source persists the pruned container (once, at the end of the
pass), is set precisely when at least one entry was expired. -/
theorem c4_expiry_pruning (now sd ed : Int) (cache : Cache)
    (hnd : NodupKeys cache.transactions) :
    (∀ id meta, id ∈ keysA cache.transactions →
      lookupA cache.metadata id = some meta → meta.expiresAt < now →
        lookupA (TransactionCache.getCachedTransactions now sd ed cache).2.1.transactions
          id = none ∧
        lookupA (TransactionCache.getCachedTransactions now sd ed cache).2.1.metadata
          id = none) ∧
    (∀ tx ∈ (TransactionCache.getCachedTransactions now sd ed cache).1,
      ∃ id, id ∈ keysA cache.transactions ∧
        lookupA cache.transactions id = some tx ∧
        TransactionCache.isExpiredIn cache.metadata now id = false) ∧
    ((TransactionCache.getCachedTransactions now sd ed cache).2.2 = true ↔
      ∃ p ∈ cache.transactions,
        TransactionCache.isExpiredIn cache.metadata now p.1 = true) := by
  have hpre : ∀ id, id ∈ keysA cache.transactions →
      lookupA (([], cache, false) :
          List Transaction × Cache × Bool).2.1.metadata id =
        lookupA cache.metadata id ∧
      lookupA (([], cache, false) :
          List Transaction × Cache × Bool).2.1.transactions id =
        lookupA cache.transactions id :=
    fun _ _ => ⟨rfl, rfl⟩
  refine ⟨?_, ?_, ?_⟩
  · intro id meta hmem hlook hexp
    rw [TransactionCache.getCachedTransactions]
    exact TransactionCache.gct_fold_prunes now (TransactionCache.dayStartMs sd)
      (TransactionCache.dayEndMs ed) cache.transactions ([], cache, false)
      cache.metadata cache.transactions hnd hpre id meta hmem hlook hexp
  · intro tx htx
    rw [TransactionCache.getCachedTransactions] at htx
    rcases TransactionCache.gct_fold_res_origin now (TransactionCache.dayStartMs sd)
      (TransactionCache.dayEndMs ed) cache.transactions ([], cache, false)
      cache.metadata cache.transactions hnd hpre tx htx with hmem | ⟨id, h1, h2, h3, _⟩
    · simp at hmem
    · exact ⟨id, h1, h2, h3⟩
  · rw [TransactionCache.getCachedTransactions]
    rw [TransactionCache.gct_fold_flag now (TransactionCache.dayStartMs sd)
      (TransactionCache.dayEndMs ed) cache.transactions ([], cache, false)
      cache.metadata cache.transactions hnd hpre]
    simp

theorem c4_witness :
    lookupA (TransactionCache.getCachedTransactions 100 0 0
        ⟨[(1, ⟨some 1, some 0, -100⟩), (2, ⟨some 2, some 0, -200⟩)],
         [(1, ⟨0, 10, false⟩), (2, ⟨0, 1000000, false⟩)]⟩).2.1.transactions 1 = none ∧
      lookupA (TransactionCache.getCachedTransactions 100 0 0
        ⟨[(1, ⟨some 1, some 0, -100⟩), (2, ⟨some 2, some 0, -200⟩)],
         [(1, ⟨0, 10, false⟩), (2, ⟨0, 1000000, false⟩)]⟩).2.1.metadata 1 = none ∧
      (TransactionCache.getCachedTransactions 100 0 0
        ⟨[(1, ⟨some 1, some 0, -100⟩), (2, ⟨some 2, some 0, -200⟩)],
         [(1, ⟨0, 10, false⟩), (2, ⟨0, 1000000, false⟩)]⟩).2.2 = true := by
  have h := c4_expiry_pruning 100 0 0
    ⟨[(1, ⟨some 1, some 0, -100⟩), (2, ⟨some 2, some 0, -200⟩)],
     [(1, ⟨0, 10, false⟩), (2, ⟨0, 1000000, false⟩)]⟩ (by decide)
  have h1 := h.1 1 ⟨0, 10, false⟩ (by decide) rfl (by decide)
  exact ⟨h1.1, h1.2, h.2.2.mpr ⟨(1, ⟨some 1, some 0, -100⟩), by decide, by decide⟩⟩

/-- C5: getCachedTransactions filters unexpired entries by the inclusive
range from startOfDay(startDate) to endOfDay(endDate): a record dated
exactly at startDate 00:00:00 is returned, one dated exactly at endDate
23:59:59 is returned, one dated one second before startDate 00:00:00 is
not. -/
theorem c5_date_range_inclusive (now sd ed id : Int) (meta : CacheMeta)
    (t1 t2 t3 : Transaction)
    (hexp : ¬(meta.expiresAt < now))
    (hdays : TransactionCache.dayStartMs sd ≤ TransactionCache.dayStartMs ed)
    (h1 : t1.TripDate = some (TransactionCache.dayStartMs sd))
    (h2 : t2.TripDate = some (TransactionCache.dayStartMs ed + 86399000))
    (h3 : t3.TripDate = some (TransactionCache.dayStartMs sd - 1000)) :
    (TransactionCache.getCachedTransactions now sd ed ⟨[(id, t1)], [(id, meta)]⟩).1 =
        [t1] ∧
      (TransactionCache.getCachedTransactions now sd ed ⟨[(id, t2)], [(id, meta)]⟩).1 =
        [t2] ∧
      (TransactionCache.getCachedTransactions now sd ed ⟨[(id, t3)], [(id, meta)]⟩).1 =
        [] := by
  have hin1 : TransactionCache.inRange (TransactionCache.dayStartMs sd)
      (TransactionCache.dayEndMs ed) t1 = true := by
    rw [TransactionCache.inRange, h1]
    simp only [TransactionCache.dayEndMs, decide_eq_true_eq]
    omega
  have hin2 : TransactionCache.inRange (TransactionCache.dayStartMs sd)
      (TransactionCache.dayEndMs ed) t2 = true := by
    rw [TransactionCache.inRange, h2]
    simp only [TransactionCache.dayEndMs, decide_eq_true_eq]
    omega
  have hin3 : TransactionCache.inRange (TransactionCache.dayStartMs sd)
      (TransactionCache.dayEndMs ed) t3 = false := by
    rw [TransactionCache.inRange, h3]
    simp only [TransactionCache.dayEndMs, decide_eq_false_iff_not]
    omega
  refine ⟨?_, ?_, ?_⟩ <;>
    simp [TransactionCache.getCachedTransactions, TransactionCache.gctStep,
      TransactionCache.collectTx, lookupA, hexp, hin1, hin2, hin3]

theorem c5_witness :
    (TransactionCache.getCachedTransactions 5 172800500 259200007
        ⟨[(1, ⟨some 1, some 172800000, -100⟩)], [(1, ⟨0, 10, false⟩)]⟩).1 =
      [⟨some 1, some 172800000, -100⟩] ∧
    (TransactionCache.getCachedTransactions 5 172800500 259200007
        ⟨[(1, ⟨some 1, some 345599000, -100⟩)], [(1, ⟨0, 10, false⟩)]⟩).1 =
      [⟨some 1, some 345599000, -100⟩] ∧
    (TransactionCache.getCachedTransactions 5 172800500 259200007
        ⟨[(1, ⟨some 1, some 172799000, -100⟩)], [(1, ⟨0, 10, false⟩)]⟩).1 = [] := by
  have h := c5_date_range_inclusive 5 172800500 259200007 1 ⟨0, 10, false⟩
    ⟨some 1, some 172800000, -100⟩ ⟨some 1, some 345599000, -100⟩
    ⟨some 1, some 172799000, -100⟩ (by decide) (by decide) (by decide) (by decide)
    (by decide)
  exact h

/-- C8: a record whose TripDate is absent or unparseable (as every
upstream API record is, its timestamp living in Entry_TripDateTime
instead of TripDate) is classified not recent, cacheTransactions stores
it with isRecent = false and the 7-day expiry, and getCachedTransactions
never returns a record without a parseable TripDate for any date range,
because the NaN trip date satisfies neither bound of the range test. -/
theorem c8_invalid_tripdate_excluded (now sd ed : Int) (t : Transaction) (cache : Cache)
    (ht : t.TripDate = none) :
    TransactionCache.isRecentTransaction now t = false ∧
    (∀ id : Int, t.CustomerTripId = some id → id ≠ 0 →
      lookupA (TransactionCache.cacheTransactions now [t] cache).metadata id =
        some ⟨now, now + TransactionCache.oldCacheDurationMs, false⟩) ∧
    (∀ tx ∈ (TransactionCache.getCachedTransactions now sd ed cache).1,
      tx.TripDate ≠ none) := by
  have hnr : TransactionCache.isRecentTransaction now t = false := by
    rw [TransactionCache.isRecentTransaction, ht]
  refine ⟨hnr, ?_, ?_⟩
  · intro id hid hid0
    rw [TransactionCache.cacheTransactions]
    simp only [List.foldl_cons, List.foldl_nil, hid, if_neg hid0]
    rw [lookupA_setA_self]
    rw [TransactionCache.getCacheDuration, hnr]
    simp
  · intro tx htx
    rw [TransactionCache.getCachedTransactions] at htx
    rcases TransactionCache.gct_res_inRange now (TransactionCache.dayStartMs sd)
      (TransactionCache.dayEndMs ed) cache.transactions ([], cache, false) tx htx with
      hmem | hin
    · simp at hmem
    · intro hnone
      rw [TransactionCache.inRange, hnone] at hin
      simp at hin

theorem c8_witness :
    TransactionCache.isRecentTransaction 1700000000000 ⟨some 7, none, -100⟩ = false ∧
      lookupA (TransactionCache.cacheTransactions 1700000000000
          [⟨some 7, none, -100⟩] ⟨[], []⟩).metadata 7 =
        some ⟨1700000000000, 1700000000000 + TransactionCache.oldCacheDurationMs,
          false⟩ := by
  have h := c8_invalid_tripdate_excluded 1700000000000 0 0 ⟨some 7, none, -100⟩
    ⟨[], []⟩ rfl
  exact ⟨h.1, h.2.1 7 rfl (by decide)⟩

/-- C1 counterexample: the empty string is a stored string that does not
begin with the ENC: marker, but getItem treats it as absent (the
JavaScript falsiness test `if (!stored) return null` fires): the call
returns null instead of the raw value, performs no migration, and the
store afterwards still holds the plaintext empty string rather than an
encrypted envelope. -/
theorem c1_counterexample_empty_string :
    startsWithMarker (StoredString.raw "") = false ∧
      (SecureStorage.getItem [("k", StoredString.raw "")] "k" 0 [1]).1 = none ∧
      lookupA (SecureStorage.getItem [("k", StoredString.raw "")] "k" 0 [1]).2 "k" =
        some (StoredString.raw "") := by
  refine ⟨rfl, rfl, rfl⟩

/-- C1 (amended to nonempty stored strings): for every NONEMPTY stored
string under a key that does not begin with the ENC: marker, the first
getItem returns the JSON-parsed value (or the raw string when parsing
fails), re-encrypts it under the same key via setItem so that the store
afterwards holds an envelope under that key, and a second getItem
returns the same value through the decryption path, leaving the store
unchanged (migration is idempotent). -/
theorem c1_migration_idempotent (st : Store) (key s : String) (keyId : Nat)
    (iv iv2 : List Nat)
    (hlook : lookupA st key = some (.raw s))
    (hnonempty : s ≠ "")
    (hnomark : encMarker.data.isPrefixOf s.data = false) :
    (SecureStorage.getItem st key keyId iv).1 =
        some ((JsonCodec.parseJson s).getD (Json.str s)) ∧
      lookupA (SecureStorage.getItem st key keyId iv).2 key =
        some (encrypt ((JsonCodec.parseJson s).getD (Json.str s)) keyId iv) ∧
      (SecureStorage.getItem (SecureStorage.getItem st key keyId iv).2 key keyId
          iv2).1 =
        some ((JsonCodec.parseJson s).getD (Json.str s)) ∧
      (SecureStorage.getItem (SecureStorage.getItem st key keyId iv).2 key keyId
          iv2).2 =
        (SecureStorage.getItem st key keyId iv).2 := by
  have hfirst : SecureStorage.getItem st key keyId iv =
      (some ((JsonCodec.parseJson s).getD (Json.str s)),
        setA st key
          (encrypt ((JsonCodec.parseJson s).getD (Json.str s)) keyId iv)) := by
    rw [SecureStorage.getItem, hlook]
    simp only [if_neg hnonempty, hnomark, Bool.false_eq_true, if_false]
    cases hp : JsonCodec.parseJson s <;>
      simp [hp, SecureStorage.setItem]
  have hsecond : SecureStorage.getItem
      (setA st key
        (encrypt ((JsonCodec.parseJson s).getD (Json.str s)) keyId iv)) key keyId iv2 =
      (some ((JsonCodec.parseJson s).getD (Json.str s)),
        setA st key
          (encrypt ((JsonCodec.parseJson s).getD (Json.str s)) keyId iv)) := by
    rw [SecureStorage.getItem, lookupA_setA_self]
    simp [encrypt, decrypt, JsonCodec.parseJson_stringifyJson]
  rw [hfirst]
  exact ⟨rfl, lookupA_setA_self st key _, by rw [hsecond], by rw [hsecond]⟩

theorem c1_witness :
    (SecureStorage.getItem [("k", StoredString.raw "123")] "k" 0 [1]).1 =
        some (Json.num 123) ∧
      lookupA (SecureStorage.getItem [("k", StoredString.raw "123")] "k" 0 [1]).2 "k" =
        some (encrypt (Json.num 123) 0 [1]) ∧
      (SecureStorage.getItem
          (SecureStorage.getItem [("k", StoredString.raw "123")] "k" 0 [1]).2 "k" 0
          [2]).1 =
        some (Json.num 123) := by
  have h := c1_migration_idempotent [("k", StoredString.raw "123")] "k" "123" 0 [1] [2]
    rfl (by decide) rfl
  exact ⟨h.1, h.2.1, h.2.2.1⟩

namespace TransactionCache

/-- The last record in a list whose CustomerTripId equals the given id,
seeded with a default (specification device for the Map override
semantics of the merge). -/
def lastWithId (l : List Transaction) (id : Int) (init : Option Transaction) :
    Option Transaction :=
  l.foldl (fun acc t => if t.CustomerTripId = some id then some t else acc) init

theorem lookupA_insertTx (m : List (Int × Transaction)) (t : Transaction) (id : Int)
    (hid : id ≠ 0) :
    lookupA (insertTx m t) id =
      if t.CustomerTripId = some id then some t else lookupA m id := by
  rw [insertTx]
  rcases ht : t.CustomerTripId with _ | j
  · simp
  · by_cases hj : j = 0
    · subst hj
      have hcond : ¬((some (0 : Int) : Option Int) = some id) :=
        fun h => hid (Option.some.inj h).symm
      simp [hcond]
    · simp only [if_neg hj]
      by_cases hji : j = id
      · subst hji
        simp [lookupA_setA_self]
      · rw [lookupA_setA_ne _ _ _ _ (fun h => hji h.symm)]
        have hcond : ¬((some j : Option Int) = some id) :=
          fun h => hji (Option.some.inj h)
        rw [if_neg hcond]

theorem lookupA_foldl_insertTx (id : Int) (hid : id ≠ 0) :
    ∀ (l : List Transaction) (m : List (Int × Transaction)),
      lookupA (l.foldl insertTx m) id = lastWithId l id (lookupA m id) := by
  intro l
  induction l with
  | nil => intro m; rfl
  | cons t l2 ih =>
    intro m
    rw [List.foldl_cons, ih (insertTx m t), lookupA_insertTx m t id hid]
    rfl

theorem lastWithId_no_match (id : Int) :
    ∀ (l : List Transaction) (init : Option Transaction),
      (∀ t ∈ l, t.CustomerTripId ≠ some id) → lastWithId l id init = init := by
  intro l
  induction l with
  | nil => intro init _; rfl
  | cons t l2 ih =>
    intro init hno
    have hnt : t.CustomerTripId ≠ some id := hno t (List.mem_cons_self t l2)
    show lastWithId l2 id (if t.CustomerTripId = some id then some t else init) = init
    rw [if_neg hnt]
    exact ih init (fun u hu => hno u (List.mem_cons_of_mem t hu))

theorem lastWithId_match (id : Int) :
    ∀ (l : List Transaction), (∃ t ∈ l, t.CustomerTripId = some id) →
      ∃ t ∈ l, t.CustomerTripId = some id ∧
        ∀ init, lastWithId l id init = some t := by
  intro l
  induction l with
  | nil =>
    intro h
    simp at h
  | cons t l2 ih =>
    intro hex
    by_cases h2 : ∃ u ∈ l2, u.CustomerTripId = some id
    · obtain ⟨u, hu, humatch, hulast⟩ := ih h2
      refine ⟨u, List.mem_cons_of_mem t hu, humatch, fun init => ?_⟩
      show lastWithId l2 id (if t.CustomerTripId = some id then some t else init) =
        some u
      exact hulast _
    · have hmt : t.CustomerTripId = some id := by
        rcases hex with ⟨u, hu, humatch⟩
        rcases List.mem_cons.1 hu with rfl | hu2
        · exact humatch
        · exact absurd ⟨u, hu2, humatch⟩ h2
      refine ⟨t, List.mem_cons_self t l2, hmt, fun init => ?_⟩
      show lastWithId l2 id (if t.CustomerTripId = some id then some t else init) =
        some t
      rw [if_pos hmt]
      refine lastWithId_no_match id l2 (some t) ?_
      intro u hu humatch
      exact h2 ⟨u, hu, humatch⟩

theorem mem_setA {K V : Type} [DecidableEq K] :
    ∀ (m : List (K × V)) (k : K) (v : V) (p : K × V),
      p ∈ setA m k v → p ∈ m ∨ p = (k, v) := by
  intro m k v
  induction m with
  | nil =>
    intro p hp
    simp [setA] at hp
    exact Or.inr hp
  | cons q rest ih =>
    intro p hp
    by_cases hq : q.1 = k
    · rw [setA, if_pos hq] at hp
      rcases List.mem_cons.1 hp with rfl | hin
      · exact Or.inr rfl
      · exact Or.inl (List.mem_cons_of_mem q hin)
    · rw [setA, if_neg hq] at hp
      rcases List.mem_cons.1 hp with rfl | hin
      · exact Or.inl (List.mem_cons_self _ _)
      · rcases ih p hin with h | h
        · exact Or.inl (List.mem_cons_of_mem q h)
        · exact Or.inr h

/-- Invariant of the merge map: unique keys, and every entry is keyed by
its own record's (truthy) CustomerTripId. -/
def MergedInv (m : List (Int × Transaction)) : Prop :=
  NodupKeys m ∧ ∀ p ∈ m, p.2.CustomerTripId = some p.1 ∧ p.1 ≠ 0

theorem mergedInv_insertTx (m : List (Int × Transaction)) (t : Transaction)
    (h : MergedInv m) : MergedInv (insertTx m t) := by
  rw [insertTx]
  rcases ht : t.CustomerTripId with _ | j
  · exact h
  · by_cases hj : j = 0
    · simp only [if_pos hj]
      exact h
    · simp only [if_neg hj]
      refine ⟨nodupKeys_setA m j t h.1, ?_⟩
      intro p hp
      rcases mem_setA m j t p hp with hin | rfl
      · exact h.2 p hin
      · exact ⟨ht, hj⟩

theorem mergedInv_foldl_insertTx :
    ∀ (l : List Transaction) (m : List (Int × Transaction)),
      MergedInv m → MergedInv (l.foldl insertTx m) := by
  intro l
  induction l with
  | nil => intro m h; exact h
  | cons t l2 ih =>
    intro m h
    rw [List.foldl_cons]
    exact ih (insertTx m t) (mergedInv_insertTx m t h)

theorem mergedInv_nil : MergedInv [] := ⟨List.nodup_nil, by intro p hp; simp at hp⟩

theorem countP_values_le_one (id : Int) :
    ∀ (m : List (Int × Transaction)), MergedInv m →
      (m.map (·.2)).countP (fun t => decide (t.CustomerTripId = some id)) ≤ 1 := by
  intro m
  induction m with
  | nil => intro _; simp
  | cons p rest ih =>
    intro hinv
    have hnd := hinv.1
    simp only [NodupKeys, keysA, List.map_cons, List.nodup_cons] at hnd
    have hinv2 : MergedInv rest :=
      ⟨hnd.2, fun q hq => hinv.2 q (List.mem_cons_of_mem p hq)⟩
    rw [List.map_cons, List.countP_cons]
    by_cases hm : p.2.CustomerTripId = some id
    · have hpid : p.1 = id :=
        Option.some.inj (((hinv.2 p (List.mem_cons_self p rest)).1).symm.trans hm)
      have hzero : (rest.map (·.2)).countP
          (fun t => decide (t.CustomerTripId = some id)) = 0 := by
        rw [List.countP_eq_zero]
        intro t htmem
        obtain ⟨q, hq, rfl⟩ := List.mem_map.1 htmem
        intro hdec
        have hqmatch : q.2.CustomerTripId = some id := of_decide_eq_true hdec
        have hq1 : q.1 = id :=
          Option.some.inj
            (((hinv.2 q (List.mem_cons_of_mem p hq)).1).symm.trans hqmatch)
        refine hnd.1 ?_
        have : q.1 ∈ List.map (fun x => x.1) rest := List.mem_map_of_mem (·.1) hq
        rw [hq1, ← hpid] at this
        exact this
      rw [hzero]
      simp [hm]
    · simpa [hm] using ih hinv2

end TransactionCache

namespace TransactionCache

theorem merge_lookup (fresh cached : List Transaction) (id : Int) (hid : id ≠ 0) :
    lookupA (fresh.foldl insertTx (cached.foldl insertTx [])) id =
      lastWithId fresh id (lastWithId cached id none) := by
  rw [lookupA_foldl_insertTx id hid, lookupA_foldl_insertTx id hid]
  rfl

theorem merge_match_lookup (fresh cached : List Transaction) (id : Int) (hid : id ≠ 0) :
    ∀ t ∈ mergeWithCache fresh cached, t.CustomerTripId = some id →
      lookupA (fresh.foldl insertTx (cached.foldl insertTx [])) id = some t := by
  intro t hmem hmatch
  have hinv : MergedInv (fresh.foldl insertTx (cached.foldl insertTx [])) :=
    mergedInv_foldl_insertTx _ _ (mergedInv_foldl_insertTx _ _ mergedInv_nil)
  obtain ⟨p, hp, rfl⟩ := List.mem_map.1 hmem
  have hpid : p.1 = id :=
    Option.some.inj ((hinv.2 p hp).1.symm.trans hmatch)
  rw [← hpid]
  exact lookupA_eq_some_of_mem _ p.1 p.2 hinv.1 (by rw [Prod.mk.eta]; exact hp)

theorem merge_exists_iff (fresh cached : List Transaction) (id : Int) (hid : id ≠ 0) :
    (∃ t, (t ∈ fresh ∨ t ∈ cached) ∧ t.CustomerTripId = some id) ↔
      ∃ t ∈ mergeWithCache fresh cached, t.CustomerTripId = some id := by
  have hlk := merge_lookup fresh cached id hid
  constructor
  · rintro ⟨t, hmem, hmatch⟩
    have hsome : ∃ u, lookupA (fresh.foldl insertTx (cached.foldl insertTx [])) id =
        some u ∧ u.CustomerTripId = some id := by
      by_cases hf : ∃ u ∈ fresh, u.CustomerTripId = some id
      · obtain ⟨u, hu, hum, hulast⟩ := lastWithId_match id fresh hf
        exact ⟨u, by rw [hlk, hulast], hum⟩
      · have hc : ∃ u ∈ cached, u.CustomerTripId = some id := by
          rcases hmem with hmf | hmc
          · exact absurd ⟨t, hmf, hmatch⟩ hf
          · exact ⟨t, hmc, hmatch⟩
        obtain ⟨u, hu, hum, hulast⟩ := lastWithId_match id cached hc
        have hnof : ∀ v ∈ fresh, v.CustomerTripId ≠ some id :=
          fun v hv hvm => hf ⟨v, hv, hvm⟩
        refine ⟨u, ?_, hum⟩
        rw [hlk, hulast none, lastWithId_no_match id fresh (some u) hnof]
    obtain ⟨u, hul, hum⟩ := hsome
    exact ⟨u, List.mem_map_of_mem (·.2) (mem_of_lookupA_eq_some _ id u hul), hum⟩
  · rintro ⟨t, hmem, hmatch⟩
    have hlook := merge_match_lookup fresh cached id hid t hmem hmatch
    rw [hlk] at hlook
    by_cases hf : ∃ u ∈ fresh, u.CustomerTripId = some id
    · obtain ⟨u, hu, hum⟩ := hf
      exact ⟨u, Or.inl hu, hum⟩
    · have hnof : ∀ v ∈ fresh, v.CustomerTripId ≠ some id :=
        fun v hv hvm => hf ⟨v, hv, hvm⟩
      rw [lastWithId_no_match id fresh _ hnof] at hlook
      by_cases hc : ∃ u ∈ cached, u.CustomerTripId = some id
      · obtain ⟨u, hu, hum⟩ := hc
        exact ⟨u, Or.inr hu, hum⟩
      · have hnoc : ∀ v ∈ cached, v.CustomerTripId ≠ some id :=
          fun v hv hvm => hc ⟨v, hv, hvm⟩
        rw [lastWithId_no_match id cached none hnoc] at hlook
        simp at hlook

end TransactionCache

/-- C3 counterexample: a record whose CustomerTripId is present but 0
(falsy in JavaScript, like the empty string for string ids) is dropped
by the merge, so the output does NOT contain one record per distinct
CustomerTripId present in the inputs. -/
theorem c3_counterexample_zero_id :
    (⟨some 0, none, -250⟩ : Transaction).CustomerTripId = some 0 ∧
      TransactionCache.mergeWithCache [⟨some 0, none, -250⟩] [] = [] :=
  ⟨rfl, rfl⟩

/-- C3 (amended to truthy identifiers): for every nonzero id, the merge
output contains exactly one record with that CustomerTripId when either
input contains one (and none otherwise); when fresh contains a record
with the id, the output's record with that id comes from fresh (fresh
wins unconditionally); and every output record carries a truthy
CustomerTripId (records whose id is absent or falsy are dropped). -/
theorem c3_merge_truthy_ids (fresh cached : List Transaction) (id : Int)
    (hid : id ≠ 0) :
    ((∃ t, (t ∈ fresh ∨ t ∈ cached) ∧ t.CustomerTripId = some id) ↔
      (TransactionCache.mergeWithCache fresh cached).countP
        (fun t => decide (t.CustomerTripId = some id)) = 1) ∧
    ((¬∃ t, (t ∈ fresh ∨ t ∈ cached) ∧ t.CustomerTripId = some id) →
      (TransactionCache.mergeWithCache fresh cached).countP
        (fun t => decide (t.CustomerTripId = some id)) = 0) ∧
    ((∃ t ∈ fresh, t.CustomerTripId = some id) →
      ∀ t ∈ TransactionCache.mergeWithCache fresh cached,
        t.CustomerTripId = some id → t ∈ fresh) ∧
    (∀ t ∈ TransactionCache.mergeWithCache fresh cached,
      TransactionCache.truthyId t.CustomerTripId = true) := by
  have hinv : TransactionCache.MergedInv
      (fresh.foldl TransactionCache.insertTx
        (cached.foldl TransactionCache.insertTx [])) :=
    TransactionCache.mergedInv_foldl_insertTx _ _
      (TransactionCache.mergedInv_foldl_insertTx _ _ TransactionCache.mergedInv_nil)
  have hiff := TransactionCache.merge_exists_iff fresh cached id hid
  have hle : (TransactionCache.mergeWithCache fresh cached).countP
      (fun t => decide (t.CustomerTripId = some id)) ≤ 1 :=
    TransactionCache.countP_values_le_one id _ hinv
  refine ⟨⟨?_, ?_⟩, ?_, ?_, ?_⟩
  · intro hex
    obtain ⟨t, hmem, hmatch⟩ := hiff.1 hex
    have hpos : 0 < (TransactionCache.mergeWithCache fresh cached).countP
        (fun t => decide (t.CustomerTripId = some id)) :=
      List.countP_pos.2 ⟨t, hmem, by simp [hmatch]⟩
    omega
  · intro h1
    have hpos : 0 < (TransactionCache.mergeWithCache fresh cached).countP
        (fun t => decide (t.CustomerTripId = some id)) := by omega
    obtain ⟨t, hmem, htp⟩ := List.countP_pos.1 hpos
    exact hiff.2 ⟨t, hmem, of_decide_eq_true htp⟩
  · intro hno
    rw [List.countP_eq_zero]
    intro t hmem hdec
    exact hno (hiff.2 ⟨t, hmem, of_decide_eq_true hdec⟩)
  · rintro ⟨u, hu, hum⟩ t hmem hmatch
    have hlook := TransactionCache.merge_match_lookup fresh cached id hid t hmem hmatch
    obtain ⟨u2, hu2, hum2, hulast⟩ :=
      TransactionCache.lastWithId_match id fresh ⟨u, hu, hum⟩
    rw [TransactionCache.merge_lookup fresh cached id hid, hulast] at hlook
    obtain rfl : u2 = t := Option.some.inj hlook
    exact hu2
  · intro t hmem
    obtain ⟨p, hp, rfl⟩ := List.mem_map.1 hmem
    have h := hinv.2 p hp
    rw [h.1]
    simp [TransactionCache.truthyId, h.2]

theorem c3_witness :
    (TransactionCache.mergeWithCache [⟨some 1, none, -250⟩]
        [⟨some 1, none, -200⟩]).countP
      (fun t => decide (t.CustomerTripId = some 1)) = 1 ∧
    ∀ t ∈ TransactionCache.mergeWithCache [⟨some 1, none, -250⟩]
        [⟨some 1, none, -200⟩],
      t.CustomerTripId = some 1 → t ∈ [(⟨some 1, none, -250⟩ : Transaction)] := by
  have h := c3_merge_truthy_ids [⟨some 1, none, -250⟩] [⟨some 1, none, -200⟩] 1
    (by decide)
  exact ⟨h.1.1 ⟨⟨some 1, none, -250⟩, Or.inl (by simp), rfl⟩,
    h.2.2.1 ⟨⟨some 1, none, -250⟩, by simp, rfl⟩⟩
